import Mathlib

/-!
Verification of the Mnemo memory store (store / query / timeline / cleanup /
blind-index crypto) against its natural-language specification.

Strings from the JavaScript source are modelled as `List Char`; timestamps are
the ISO strings the code itself compares and splits; JavaScript numbers that
carry fractions (importance, relevance) are modelled as `ℚ`.  The external
`compromise` NLP analyzer is not part of this repository; the source's own
deterministic fallback tokenizer (`basicExtract`, which spec §4.1 requires to
satisfy the identical contract) is embedded as the keyword extractor.
-/

namespace Mnemo

/-- Shorthand turning a string literal into the `List Char` used everywhere. -/
def lit (s : String) : List Char := s.toList

/-- Characters kept by the tokenizers: the regex class `[a-z0-9]`. -/
def keepChar (c : Char) : Bool :=
  (97 ≤ c.toNat && c.toNat ≤ 122) || (48 ≤ c.toNat && c.toNat ≤ 57)

/-- Whitespace for the `\s` regex class (ASCII fragment). -/
def isWs (c : Char) : Bool :=
  c == ' ' || c == '\t' || c == '\n' || c == '\r'

/-- `String.prototype.toLowerCase` (ASCII fragment, as `Char.toLower`). -/
def toLowerStr (s : List Char) : List Char := s.map Char.toLower

/-- Worker for `splitWs`: accumulates the current token (reversed). -/
def splitWsGo : List Char → List Char → List (List Char)
  | [], cur => if cur.isEmpty then [] else [cur.reverse]
  | c :: rest, cur =>
    if isWs c then
      if cur.isEmpty then splitWsGo rest [] else cur.reverse :: splitWsGo rest []
    else splitWsGo rest (c :: cur)

/-- `split(/\s+/)`: the maximal non-whitespace runs of the string.  (The empty
leading token JavaScript produces is dropped here; the source drops it one
step later through the `length > 3` filter, so the composites agree.) -/
def splitWs (s : List Char) : List (List Char) := splitWsGo s []

/-- Worker for `dedupFirst`, carrying the set of already-seen tokens. -/
def dedupFirstGo : List (List Char) → List (List Char) → List (List Char)
  | [], _ => []
  | a :: rest, seen =>
    if a ∈ seen then dedupFirstGo rest seen else a :: dedupFirstGo rest (a :: seen)

/-- `filter((w, i, self) => self.indexOf(w) === i)` / `new Set`: keep the first
occurrence of every element. -/
def dedupFirst (l : List (List Char)) : List (List Char) := dedupFirstGo l []

/-- The fixed stop-word list of `basicExtract` in `index.js`. -/
def basicStopWords : List (List Char) :=
  [lit ("this"), lit ("that"), lit ("with"), lit ("from"), lit ("have"),
   lit ("been"), lit ("were"), lit ("they"), lit ("their"), lit ("what"),
   lit ("when"), lit ("where"), lit ("which"), lit ("while"), lit ("about")]

/-- `basicExtract` from `index.js`: lowercase, replace `[^a-z0-9\s]` by a
space, split on whitespace, keep words longer than 3 that are not stop
words, dedup keeping first occurrences, cap at 10. -/
def basicExtract (content : List Char) : List (List Char) :=
  let cleaned := (toLowerStr content).map (fun c => if keepChar c || isWs c then c else ' ')
  (dedupFirst ((splitWs cleaned).filter
      (fun t => decide (t.length > 3) && !(basicStopWords.contains t)))).take 10

/-- The keyword extractor of `index.js` used by Store and Query.  The source
prefers the external `compromise` NLP analyzer and falls back to
`basicExtract` on failure; the analyzer is outside this repository, so the
deterministic fallback (spec §4.1: "identical contract") is the embedding. -/
def extractKeywords (content : List Char) : List (List Char) := basicExtract content

namespace Crypto

/-- `extractKeywords` of the crypto module (`part_004`): lowercase, delete
`[^a-z0-9\s]`, split on whitespace, keep words longer than 3, dedup via
`new Set`.  No stop-word filter and no cap. -/
def extractKeywords (content : List Char) : List (List Char) :=
  let cleaned := (toLowerStr content).filter (fun c => keepChar c || isWs c)
  dedupFirst ((splitWs cleaned).filter (fun t => decide (t.length > 3)))

end Crypto

/-- Is the first list a prefix of the second? -/
def isPre : List Char → List Char → Bool
  | [], _ => true
  | _ :: _, [] => false
  | a :: as, b :: bs => a == b && isPre as bs

/-- `String.prototype.includes`: substring containment. -/
def hasSub (n h : List Char) : Bool :=
  match h with
  | [] => isPre n []
  | _ :: hs => isPre n h || hasSub n hs

/-- Code-unit lexicographic string order (`<=`), as SQLite and JavaScript
compare the ISO timestamp strings. -/
def strLe : List Char → List Char → Bool
  | [], _ => true
  | _ :: _, [] => false
  | a :: as, b :: bs =>
    if a.toNat < b.toNat then true
    else if b.toNat < a.toNat then false
    else strLe as bs

/-- Strict string order: `a < b`. -/
def strLt (a b : List Char) : Bool := !(strLe b a)

theorem strLe_total (a b : List Char) : strLe a b = true ∨ strLe b a = true := by
  induction a generalizing b with
  | nil => exact Or.inl rfl
  | cons x xs ih =>
    cases b with
    | nil => exact Or.inr rfl
    | cons y ys =>
      by_cases h1 : x.toNat < y.toNat
      · exact Or.inl (by simp [strLe, h1])
      · by_cases h2 : y.toNat < x.toNat
        · exact Or.inr (by simp [strLe, h2])
        · rcases ih ys with h | h
          · exact Or.inl (by simp [strLe, h1, h2, h])
          · exact Or.inr (by simp [strLe, h1, h2, h])

theorem strLe_trans {a b c : List Char} (h1 : strLe a b = true)
    (h2 : strLe b c = true) : strLe a c = true := by
  induction a generalizing b c with
  | nil => rfl
  | cons x xs ih =>
    cases b with
    | nil => simp [strLe] at h1
    | cons y ys =>
      cases c with
      | nil => simp [strLe] at h2
      | cons z zs =>
        simp only [strLe] at h1 h2 ⊢
        rcases Nat.lt_trichotomy x.toNat y.toNat with hxy | hxy | hxy
        · rcases Nat.lt_trichotomy y.toNat z.toNat with hyz | hyz | hyz
          · rw [if_pos (by omega)]
          · rw [if_pos (by omega)]
          · rw [if_neg (by omega), if_pos hyz] at h2
            exact absurd h2 (by simp)
        · rw [if_neg (by omega), if_neg (by omega)] at h1
          rcases Nat.lt_trichotomy y.toNat z.toNat with hyz | hyz | hyz
          · rw [if_pos (by omega)]
          · rw [if_neg (by omega), if_neg (by omega)] at h2
            rw [if_neg (by omega), if_neg (by omega)]
            exact ih h1 h2
          · rw [if_neg (by omega), if_pos hyz] at h2
            exact absurd h2 (by simp)
        · rw [if_neg (by omega), if_pos hxy] at h1
          exact absurd h1 (by simp)

/-! ### Stable insertion sort

`Array.prototype.sort` (stable since ES2019) and SQLite `ORDER BY` are
modelled by a stable insertion sort parameterized by a boolean comparison
`le a b` meaning "`a` may come before `b`". -/

section Sorting

variable {α : Type}

/-- Insert `a` before the first element it may precede. -/
def ordInsert (le : α → α → Bool) (a : α) : List α → List α
  | [] => [a]
  | b :: l => if le a b then a :: b :: l else b :: ordInsert le a l

/-- Stable insertion sort. -/
def insSort (le : α → α → Bool) : List α → List α
  | [] => []
  | a :: l => ordInsert le a (insSort le l)

theorem mem_ordInsert {le : α → α → Bool} {a x : α} {l : List α} :
    x ∈ ordInsert le a l ↔ x = a ∨ x ∈ l := by
  induction l with
  | nil => simp [ordInsert]
  | cons b l ih =>
    simp only [ordInsert]
    split
    · simp [List.mem_cons]
    · simp [List.mem_cons, ih]
      tauto

theorem mem_insSort {le : α → α → Bool} {x : α} {l : List α} :
    x ∈ insSort le l ↔ x ∈ l := by
  induction l with
  | nil => simp [insSort]
  | cons a l ih => simp [insSort, mem_ordInsert, ih, List.mem_cons]

theorem pairwise_ordInsert {le : α → α → Bool}
    (htot : ∀ a b, le a b = true ∨ le b a = true)
    (htr : ∀ a b c, le a b = true → le b c = true → le a c = true)
    (a : α) {l : List α} (hl : l.Pairwise (fun x y => le x y = true)) :
    (ordInsert le a l).Pairwise (fun x y => le x y = true) := by
  induction l with
  | nil => simp [ordInsert]
  | cons b l ih =>
    rw [List.pairwise_cons] at hl
    obtain ⟨hb, hl⟩ := hl
    simp only [ordInsert]
    split
    · rename_i hab
      refine List.Pairwise.cons ?_ (List.Pairwise.cons hb hl)
      intro x hx
      rcases List.mem_cons.mp hx with rfl | hx
      · exact hab
      · exact htr a b x hab (hb x hx)
    · rename_i hab
      refine List.Pairwise.cons ?_ (ih hl)
      intro x hx
      rcases mem_ordInsert.mp hx with rfl | hx
      · rcases htot x b with h | h
        · exact absurd h hab
        · exact h
      · exact hb x hx

theorem pairwise_insSort {le : α → α → Bool}
    (htot : ∀ a b, le a b = true ∨ le b a = true)
    (htr : ∀ a b c, le a b = true → le b c = true → le a c = true)
    (l : List α) :
    (insSort le l).Pairwise (fun x y => le x y = true) := by
  induction l with
  | nil => simp [insSort]
  | cons a l ih => exact pairwise_ordInsert htot htr a ih

/-- The key-based comparison a JavaScript comparator `(a, b) => key b - key a`
induces (descending sort by a rational key). -/
def keyGe (k : α → ℚ) (a b : α) : Bool := decide (k b ≤ k a)

/-- Descending order by key, equal keys resolved by a secondary relation:
what a stable descending sort guarantees on a secondarily-ordered input. -/
def StabRel (k : α → ℚ) (r2 : α → α → Prop) (a b : α) : Prop :=
  k b < k a ∨ (k a = k b ∧ r2 a b)

theorem pairwise_ordInsert_stab {k : α → ℚ} {r2 : α → α → Prop} {a : α}
    {m : List α} (hm : m.Pairwise (StabRel k r2)) (ha : ∀ x ∈ m, r2 a x) :
    (ordInsert (keyGe k) a m).Pairwise (StabRel k r2) := by
  induction m with
  | nil => simp [ordInsert]
  | cons b m ih =>
    rw [List.pairwise_cons] at hm
    obtain ⟨hb, hm⟩ := hm
    simp only [ordInsert]
    split
    · rename_i hab
      have hba : k b ≤ k a := of_decide_eq_true hab
      refine List.Pairwise.cons ?_ (List.Pairwise.cons hb hm)
      intro x hx
      rcases List.mem_cons.mp hx with rfl | hx
      · rcases lt_or_eq_of_le hba with h | h
        · exact Or.inl h
        · exact Or.inr ⟨h.symm, ha x (List.mem_cons_self _ _)⟩
      · have hxb : k x ≤ k b := by
          rcases hb x hx with h | ⟨h, _⟩
          · exact le_of_lt h
          · exact le_of_eq h.symm
        rcases lt_or_eq_of_le (le_trans hxb hba) with h | h
        · exact Or.inl h
        · exact Or.inr ⟨h.symm, ha x (List.mem_cons_of_mem _ hx)⟩
    · rename_i hab
      have hba : k a < k b := by
        have := of_decide_eq_false (Bool.of_not_eq_true hab)
        exact lt_of_not_le this
      refine List.Pairwise.cons ?_ (ih hm (fun x hx => ha x (List.mem_cons_of_mem _ hx)))
      intro x hx
      rcases mem_ordInsert.mp hx with rfl | hx
      · exact Or.inl hba
      · exact hb x hx

/-- Stability: sorting a secondarily-sorted list descending by key leaves any
two equal-key elements in their secondary order. -/
theorem pairwise_insSort_stab {k : α → ℚ} {r2 : α → α → Prop} {l : List α}
    (hl : l.Pairwise r2) :
    (insSort (keyGe k) l).Pairwise (StabRel k r2) := by
  induction l with
  | nil => simp [insSort]
  | cons a l ih =>
    rw [List.pairwise_cons] at hl
    obtain ⟨ha, hl⟩ := hl
    exact pairwise_ordInsert_stab (ih hl)
      (fun x hx => ha x (mem_insSort.mp hx))

theorem countP_ordInsert (p : α → Bool) (le : α → α → Bool) (a : α)
    (l : List α) :
    (ordInsert le a l).countP p = (l.countP p) + (if p a then 1 else 0) := by
  induction l with
  | nil => simp [ordInsert, List.countP_cons]
  | cons b l ih =>
    simp only [ordInsert]
    split <;> simp [List.countP_cons, ih] <;> try (split <;> omega)

theorem countP_insSort (p : α → Bool) (le : α → α → Bool) (l : List α) :
    (insSort le l).countP p = l.countP p := by
  induction l with
  | nil => rfl
  | cons a l ih => simp [insSort, countP_ordInsert, ih, List.countP_cons]

/-- A sort whose comparison accepts every adjacent pair leaves the list
unchanged (the all-ties case). -/
theorem insSort_of_all {le : α → α → Bool} {l : List α}
    (h : ∀ a ∈ l, ∀ b ∈ l, le a b = true) : insSort le l = l := by
  induction l with
  | nil => rfl
  | cons a l ih =>
    have hl : insSort le l = l :=
      ih (fun x hx y hy => h x (List.mem_cons_of_mem _ hx) y (List.mem_cons_of_mem _ hy))
    simp only [insSort, hl]
    cases l with
    | nil => rfl
    | cons b l2 =>
      simp only [ordInsert]
      rw [if_pos (h a (List.mem_cons_self _ _) b
        (List.mem_cons_of_mem _ (List.mem_cons_self _ _)))]

/-- In a list sorted descending by key, an element is within the first `n`
whenever at most `n` elements (itself included) have a key at least its. -/
theorem mem_take_of_countP_le {k : α → ℚ} {l : List α} {x : α} {n : Nat}
    (hs : l.Pairwise (fun a b => k b ≤ k a)) (hx : x ∈ l)
    (hc : l.countP (fun y => decide (k x ≤ k y)) ≤ n) :
    x ∈ l.take n := by
  induction l generalizing n with
  | nil => cases hx
  | cons b l ih =>
    rw [List.pairwise_cons] at hs
    obtain ⟨hb, hs⟩ := hs
    have hxb : k x ≤ k b := by
      rcases List.mem_cons.mp hx with rfl | hx
      · exact le_refl _
      · exact hb x hx
    have hcb : (b :: l).countP (fun y => decide (k x ≤ k y)) =
        l.countP (fun y => decide (k x ≤ k y)) + 1 := by
      rw [List.countP_cons, if_pos (decide_eq_true hxb)]
    rw [hcb] at hc
    obtain ⟨m, rfl⟩ : ∃ m, n = m + 1 := ⟨n - 1, by omega⟩
    rw [List.take_succ_cons]
    rcases List.mem_cons.mp hx with rfl | hx
    · exact List.mem_cons_self _ _
    · exact List.mem_cons_of_mem _ (ih hs hx (by omega))

end Sorting

/-! ### Kernel-reducible rational arithmetic

Core marks `Rat.mul` and `Rat.inv` `@[irreducible]`, so concrete query
evaluations could not go through `decide` with `*` and `/`.  The model
therefore computes products and quotients of rationals through `mkRat`,
and the two bridge lemmas prove these equal `*` and `/`. -/

/-- `a * b` on ℚ, computably. -/
def ratMul (a b : ℚ) : ℚ := mkRat (a.num * b.num) (a.den * b.den)

theorem ratMul_eq (a b : ℚ) : ratMul a b = a * b :=
  (Rat.mul_eq_mkRat a b).symm

/-- `(m : ℚ) / (n : ℚ)` for naturals, computably. -/
def ratDivNat (m n : Nat) : ℚ := mkRat m n

theorem ratDivNat_eq (m n : Nat) : ratDivNat m n = (m : ℚ) / (n : ℚ) := by
  rw [Rat.div_def']
  simp only [Rat.num_natCast, Rat.den_natCast, Nat.cast_one, Int.mul_one,
    Int.one_mul, Rat.divInt_ofNat]
  rfl

/-! ### Data model

A memory row as both `index.js` and `server.js` persist it.  `keywords` is
the `metadata.keywords` component — the only part of the metadata the core
reads back.  `created` and `deleted` are the timestamp strings the code
compares and splits. -/

structure Row where
  agent : List Char
  content : List Char
  contentType : List Char
  keywords : List (List Char)
  importance : ℚ
  created : List Char
  deleted : Option (List Char)
deriving DecidableEq

/-- The `options` object of `index.js` `store(content, options)`. -/
structure StoreOpts where
  agentId : Option (List Char)
  type : Option (List Char)
  importance : Option ℚ
deriving DecidableEq

inductive StoreError where
  | validation (msg : List Char)
deriving DecidableEq

/-! ### `index.js` — the MemoryBridge library -/

namespace MB

def maxContentLength : Nat := 10000

/-- The `/^[a-zA-Z0-9_-]{1,64}$/` character class for agent ids. -/
def validAgentChar (c : Char) : Bool :=
  (65 ≤ c.toNat && c.toNat ≤ 90) || (97 ≤ c.toNat && c.toNat ≤ 122) ||
    (48 ≤ c.toNat && c.toNat ≤ 57) || c == '_' || c == '-'

def validTypes : List (List Char) :=
  [lit ("insight"), lit ("preference"), lit ("error"), lit ("goal"),
   lit ("decision"), lit ("security"), lit ("conversation")]

/-- `validateStoreInput` from `index.js`.  (`Number(options.importance)`
producing `NaN` is rejected by the source exactly like an out-of-range
value; non-numeric importance inputs are not modelled.) -/
def validateStoreInput (content : List Char) (opts : StoreOpts) :
    Except StoreError Unit :=
  if content.length = 0 then .error (.validation (lit ("Content cannot be empty")))
  else if content.length > maxContentLength then
    .error (.validation (lit ("Content too long")))
  else if (match opts.agentId with
      | some a => !(decide (1 ≤ a.length) && decide (a.length ≤ 64) &&
          a.all validAgentChar)
      | none => false) then .error (.validation (lit ("Invalid agentId")))
  else if (match opts.importance with
      | some v => decide (v < 1) || decide (v > 10)
      | none => false) then
    .error (.validation (lit ("Importance must be a number 1-10")))
  else if (match opts.type with
      | some t => !(validTypes.contains t)
      | none => false) then .error (.validation (lit ("Invalid type")))
  else .ok ()

/-- `calculateImportance` from `index.js`. -/
def calculateImportance (content : List Char) (type : List Char) : ℚ :=
  let s1 : ℚ := 5 + (if content.length > 200 then 1 else 0)
  let s2 := s1 + (if type = lit ("insight") then 2 else 0)
  let s3 := s2 + (if type = lit ("error") then 1 else 0)
  let s4 := s3 + (if type = lit ("security") then 3 else 0)
  let s5 := s4 + (if type = lit ("goal") then 2 else 0)
  min 10 s5

/-- `store` from `index.js` over a list-of-rows database; `now` is the
`created_at` the underlying storage assigns.  (`options.importance || ...`:
a supplied importance that passed validation is at least 1, hence truthy,
so it is used as-is.) -/
def store (db : List Row) (content : List Char) (opts : StoreOpts)
    (now : List Char) : Except StoreError (List Row × Row) :=
  match validateStoreInput content opts with
  | .error e => .error e
  | .ok _ =>
    let agentId := opts.agentId.getD (lit ("default"))
    let type := opts.type.getD (lit ("insight"))
    let importance := match opts.importance with
      | some v => v
      | none => calculateImportance content type
    let row : Row := ⟨agentId, content.take 5000, type,
      extractKeywords content, importance, now, none⟩
    .ok (db ++ [row], row)

/-- A query result row: the fetched row plus its computed `relevance`. -/
structure Scored where
  row : Row
  relevance : ℚ
deriving DecidableEq

/-- Number of query keywords matching some stored keyword by bidirectional
substring containment (`mk.includes(qk) || qk.includes(mk)`). -/
def matchCount (queryKeywords memKeywords : List (List Char)) : Nat :=
  (queryKeywords.filter
    (fun qk => memKeywords.any (fun mk => hasSub qk mk || hasSub mk qk))).length

def scoreRow (qk : List (List Char)) (r : Row) : Scored :=
  ⟨r, if qk.length > 0 then ratDivNat (matchCount qk r.keywords) qk.length
      else 0⟩

/-- The relevance field is the source's
`matches / queryKeywords.length` (0 on an empty keyword list). -/
theorem scoreRow_relevance (qk : List (List Char)) (r : Row) :
    (scoreRow qk r).relevance =
      if qk.length > 0 then
        (matchCount qk r.keywords : ℚ) / (qk.length : ℚ)
      else 0 := by
  unfold scoreRow
  split <;> simp [ratDivNat_eq]

/-- The SQL candidate fetch of `querySQLite`: agent scope, not soft-deleted,
inside the recency window (`created_at > cutoff`), importance at least the
minimum, newest first, at most 50 rows. -/
def candidates (db : List Row) (agentId cutoff : List Char)
    (minImportance : ℚ) : List Row :=
  (insSort (fun a b => strLe b.created a.created)
    (db.filter (fun r =>
      r.agent == agentId && r.deleted == none && strLt cutoff r.created &&
      decide (minImportance ≤ r.importance)))).take 50

/-- The relevance filter: `m.relevance > 0 || queryKeywords.length === 0`. -/
def keepScored (qk : List (List Char)) (m : Scored) : Bool :=
  decide (0 < m.relevance) || decide (qk.length = 0)

/-- Sort key of the result sort: `relevance × importance`. -/
def prodKey (m : Scored) : ℚ := ratMul m.relevance m.row.importance

theorem prodKey_eq (m : Scored) :
    prodKey m = m.relevance * m.row.importance :=
  ratMul_eq _ _

/-- Scored and relevance-filtered candidates, before the final sort. -/
def rankPool (db : List Row) (agentId : List Char) (qk : List (List Char))
    (cutoff : List Char) (minImportance : ℚ) : List Scored :=
  ((candidates db agentId cutoff minImportance).map (scoreRow qk)).filter
    (keepScored qk)

/-- `querySQLite` from `index.js`: fetch, score, filter, stable-sort by
`relevance × importance` descending, truncate to `limit`. -/
def querySQLite (db : List Row) (agentId : List Char) (qk : List (List Char))
    (limit : Nat) (cutoff : List Char) (minImportance : ℚ) : List Scored :=
  (insSort (keyGe prodKey) (rankPool db agentId qk cutoff minImportance)).take
    limit

/-- `query` from `index.js`: extract keywords from the query string, then
run `querySQLite`. -/
def query (db : List Row) (qstr : List Char) (agentId : List Char)
    (limit : Nat) (cutoff : List Char) (minImportance : ℚ) : List Scored :=
  querySQLite db agentId (extractKeywords qstr) limit cutoff minImportance

/-- `query` with its defaults: agent `default`, limit 5, minImportance 0;
`cutoff` is the timestamp 30 days (the default window) before now. -/
def queryDefault (db : List Row) (qstr cutoff : List Char) : List Scored :=
  query db qstr (lit ("default")) 5 cutoff 0

end MB

/-! ### `server.js` — the data-lake server -/

namespace Server

/-- The `store` endpoint of `server.js` combined with `storeMemory`:
content checks, then `Math.min(10, Math.max(1, importance || 5))`.  The
server does not extract keywords (metadata is stored verbatim), so the
stored row's keyword list is empty. -/
def storeEndpoint (db : List Row) (content : List Char)
    (type agentId : Option (List Char)) (importance : Option ℚ)
    (now : List Char) : Except StoreError (List Row × Row) :=
  if content.isEmpty then .error (.validation (lit ("Content required")))
  else if content.length > 10000 then
    .error (.validation (lit ("Content too long")))
  else
    let imp0 : ℚ := match importance with
      | some v => if v = 0 then 5 else v
      | none => 5
    let imp := min 10 (max 1 imp0)
    let row : Row := ⟨agentId.getD (lit ("default")), content,
      type.getD (lit ("insight")), [], imp, now, none⟩
    .ok (db ++ [row], row)

/-- Worker for `countOcc`; the needle is `n0 :: nr`.  Each step consumes
at least one haystack character, so `fuel := hay.length` makes the
recursion structural without changing the result. -/
def countOccGo (n0 : Char) (nr : List Char) : Nat → List Char → Nat
  | 0, _ => 0
  | _, [] => 0
  | fuel + 1, c :: rest =>
    if isPre (n0 :: nr) (c :: rest) then
      1 + countOccGo n0 nr fuel (rest.drop nr.length)
    else countOccGo n0 nr fuel rest

/-- Number of non-overlapping, left-to-right occurrences of `needle` in
`hay`, as `REPLACE(hay, needle, '')` removes them. -/
def countOcc (needle hay : List Char) : Nat :=
  match needle with
  | [] => 0
  | n0 :: nr => countOccGo n0 nr hay.length hay

/-- The SQL relevance of `queryMemories`:
`(LENGTH(content) - LENGTH(REPLACE(LOWER(content), LOWER(q), ''))) / LENGTH(q)`,
i.e. the occurrence count of the lowercased query in the lowercased
content. -/
def relevanceServer (content q : List Char) : Nat :=
  countOcc (toLowerStr q) (toLowerStr content)

/-- Remainder of the haystack after the first occurrence of `n0 :: nr`,
`none` if absent. -/
def stripAfter (n0 : Char) (nr : List Char) : List Char → Option (List Char)
  | [] => none
  | c :: rest =>
    if isPre (n0 :: nr) (c :: rest) then some (rest.drop nr.length)
    else stripAfter n0 nr rest

/-- `LIKE '%w1%w2%...%'`: the words occur in order, disjointly. -/
def seqMatch : List (List Char) → List Char → Bool
  | [], _ => true
  | [] :: ws, s => seqMatch ws s
  | (c :: wrd) :: ws, s =>
    match stripAfter c wrd s with
    | none => false
    | some rest => seqMatch ws rest

/-- Worker for `splitSp`. -/
def splitSpGo : List Char → List Char → List (List Char)
  | [], cur => [cur.reverse]
  | c :: rest, cur =>
    if c == ' ' then cur.reverse :: splitSpGo rest []
    else splitSpGo rest (c :: cur)

/-- `q.split(' ')`: split on single spaces, keeping empty fields. -/
def splitSp (s : List Char) : List (List Char) := splitSpGo s []

/-- The keyword-matching WHERE clause of `queryMemories`:
`LOWER(content) LIKE LOWER('%q%') OR LOWER(content) LIKE
LOWER('%' || replace(q, ' ', '%') || '%')`. -/
def likeCond (content q : List Char) : Bool :=
  hasSub (toLowerStr q) (toLowerStr content) ||
    seqMatch ((splitSp q).map toLowerStr) (toLowerStr content)

/-- A `queryMemories` result row with its SQL-computed relevance. -/
structure SRow where
  row : Row
  relevance : Nat
deriving DecidableEq

/-- `ORDER BY importance DESC, relevance DESC, created_at DESC`:
`a` may precede `b`. -/
def ServerRel (a b : SRow) : Prop :=
  b.row.importance < a.row.importance ∨
    (a.row.importance = b.row.importance ∧
      (b.relevance < a.relevance ∨
        (a.relevance = b.relevance ∧ strLe b.row.created a.row.created = true)))

instance : DecidableRel ServerRel := by
  unfold ServerRel DecidableRel
  infer_instance

def serverLe (a b : SRow) : Bool := decide (ServerRel a b)

/-- `queryMemories` from `server.js` over one project partition. -/
def queryMemories (db : List Row) (q : List Char) (cutoff : List Char)
    (agentF typeF : Option (List Char)) (limit : Nat) : List SRow :=
  let cands := db.filter (fun r =>
    r.deleted == none && strLt cutoff r.created &&
    (match agentF with | some a => r.agent == a | none => true) &&
    (match typeF with | some t => r.contentType == t | none => true) &&
    likeCond r.content q)
  let scored := cands.map (fun r =>
    (⟨r, relevanceServer r.content q⟩ : SRow))
  (insSort serverLe scored).take limit

/-- The WHERE clause of both timeline queries. -/
def tlPred (agentF : Option (List Char)) (cutoff : List Char) (r : Row) :
    Bool :=
  r.deleted == none && strLt cutoff r.created &&
    (match agentF with | some a => r.agent == a | none => true)

/-- Rows fetched by the timeline queries: in-window, non-deleted, newest
first. -/
def timelineRows (db : List Row) (agentF : Option (List Char))
    (cutoff : List Char) : List Row :=
  insSort (fun a b => strLe b.created a.created) (db.filter (tlPred agentF cutoff))

/-- `row.created_at.split('T')[0]` — the date portion of an ISO
timestamp. -/
def dateOf (r : Row) : List Char := r.created.takeWhile (fun c => c ≠ 'T')

/-- One step of the `reduce` grouping: append `r` to its date's sequence,
creating the key (at the end, in first-appearance order) when absent. -/
def addToGroup (key : List Char) (r : Row) :
    List (List Char × List Row) → List (List Char × List Row)
  | [] => [(key, [r])]
  | (k, v) :: rest =>
    if k = key then (k, v ++ [r]) :: rest
    else (k, v) :: addToGroup key r rest

/-- The `reduce`/object grouping of the timeline handlers, as an
association list in key-first-appearance order. -/
def groupByDate (rows : List Row) : List (List Char × List Row) :=
  rows.foldl (fun acc r => addToGroup (dateOf r) r acc) []

/-- `getTimeline` from `server.js` (optional agent filter);
`timelineSQLite` from `index.js` is the same pipeline with a mandatory
agent filter. -/
def getTimeline (db : List Row) (agentF : Option (List Char))
    (cutoff : List Char) : List (List Char × List Row) :=
  groupByDate (timelineRows db agentF cutoff)

/-- `timelineSQLite` from `index.js`. -/
def timelineSQLite (db : List Row) (agentId cutoff : List Char) :
    List (List Char × List Row) :=
  getTimeline db (some agentId) cutoff

/-- Value lookup in the grouped timeline (empty when the key is absent). -/
def lookupG (k : List Char) : List (List Char × List Row) → List Row
  | [] => []
  | (k2, v) :: rest => if k2 = k then v else lookupG k rest

/-- Key list of the grouped timeline. -/
def keysOf (g : List (List Char × List Row)) : List (List Char) :=
  g.map Prod.fst

/-- The DELETE predicate of `cleanupOldMemories`:
`created_at < cutoff AND importance <= maxImportance AND deleted_at IS
NULL`. -/
def cleanupPred (cutoff : List Char) (maxImportance : ℚ) (r : Row) : Bool :=
  strLt r.created cutoff && decide (r.importance ≤ maxImportance) &&
    r.deleted == none

/-- `cleanupOldMemories` from `server.js`: the database after the DELETE,
and `this.changes` (the number of rows removed). -/
def cleanupOldMemories (db : List Row) (cutoff : List Char)
    (maxImportance : ℚ) : List Row × Nat :=
  (db.filter (fun r => !(cleanupPred cutoff maxImportance r)),
   db.countP (cleanupPred cutoff maxImportance))

/-- The `[a-z0-9_-]` class kept by the project-name sanitizer
(`_` is code 95, `-` is code 45). -/
def allowedProjChar (c : Char) : Bool :=
  (97 ≤ c.toNat && c.toNat ≤ 122) || (48 ≤ c.toNat && c.toNat ≤ 57) ||
    c.toNat == 95 || c.toNat == 45

/-- `project.toLowerCase().replace(/[^a-z0-9_-]/g, '')`. -/
def sanitizeProject (p : List Char) : List Char :=
  (toLowerStr p).filter allowedProjChar

/-- `getProjectDbPath` from `server.js`, relative to the data-lake base. -/
def getProjectDbPath (p : List Char) : List Char :=
  lit ("memory-") ++ sanitizeProject p ++ lit ("/bridge.db")

end Server

/-! ### The crypto module (blind indexing)

AES-256-GCM and HMAC-SHA256 are Node `crypto` builtins, not repository
code; the module's own logic — the GCM composition (fresh-IV CTR keystream
XOR, trailing 16-byte tag, hex encoding), the tag split in `decrypt`, and
the blind-index derivation — is embedded with the primitives as
parameters: `ks key iv i` is the `i`-th keystream byte for `(key, iv)`,
`mac key iv ct` the 16-byte authentication tag, `hm hmacKey s` the hex
HMAC digest, `hkd key` the derived HMAC key (`getHmacKey`).  Plaintext is
handled at byte granularity: the characters of `content` are its bytes. -/

namespace Crypto

def AUTH_TAG_LENGTH : Nat := 16

def hexDigit (n : Nat) : Char :=
  if n < 10 then Char.ofNat (48 + n) else Char.ofNat (87 + n)

/-- `Buffer.prototype.toString('hex')`. -/
def bytesToHex : List Nat → List Char
  | [] => []
  | b :: bs => hexDigit (b / 16) :: hexDigit (b % 16) :: bytesToHex bs

def hexVal (c : Char) : Nat :=
  if 48 ≤ c.toNat && c.toNat ≤ 57 then c.toNat - 48 else c.toNat - 87

/-- `Buffer.from(s, 'hex')`. -/
def hexToBytes : List Char → List Nat
  | c1 :: c2 :: rest => (hexVal c1 * 16 + hexVal c2) :: hexToBytes rest
  | _ => []

/-- CTR-mode byte stream XOR, starting at keystream position `i`. -/
def xorKs (ks : Nat → Nat) : Nat → List Nat → List Nat
  | _, [] => []
  | i, b :: bs => (b ^^^ ks i) :: xorKs ks (i + 1) bs

/-- The return object of `encryptWithIndex`. -/
structure EncOut where
  ciphertext : List Char
  iv : List Char
  blindIndexes : List (List Char)
deriving DecidableEq

/-- `encryptWithIndex` from the crypto module: encrypt the content, append
the auth tag to the hex ciphertext, and HMAC each lowercased extracted
keyword into a blind-index token.  The fresh random `iv` is a parameter
(its randomness is external). -/
def encryptWithIndex (ks : List Nat → List Nat → Nat → Nat)
    (mac : List Nat → List Nat → List Nat → List Nat)
    (hm : List Nat → List Char → List Char) (hkd : List Nat → List Nat)
    (content : List Char) (key iv : List Nat) : EncOut :=
  let pbytes := content.map Char.toNat
  let ct := xorKs (ks key iv) 0 pbytes
  let tag := mac key iv ct
  let hmacKey := hkd key
  ⟨bytesToHex ct ++ bytesToHex tag, bytesToHex iv,
   (extractKeywords content).map (fun kw => hm hmacKey (toLowerStr kw))⟩

/-- `decrypt` from the crypto module: hex-decode, split off the trailing
16-byte tag, verify it, XOR the keystream back.  A tag mismatch
(`decipher.final()` throwing) is `none`. -/
def decrypt (ks : List Nat → List Nat → Nat → Nat)
    (mac : List Nat → List Nat → List Nat → List Nat)
    (key : List Nat) (ciphertext ivHex : List Char) : Option (List Char) :=
  let iv := hexToBytes ivHex
  let enc := hexToBytes ciphertext
  let data := enc.take (enc.length - AUTH_TAG_LENGTH)
  let tag := enc.drop (enc.length - AUTH_TAG_LENGTH)
  if mac key iv data == tag then
    some ((xorKs (ks key iv) 0 data).map Char.ofNat)
  else none

/-- `generateQueryIndex` from the crypto module: the HMAC of the lowercased
whole query string under the derived HMAC key. -/
def generateQueryIndex (hm : List Nat → List Char → List Char)
    (hkd : List Nat → List Nat) (q : List Char) (key : List Nat) :
    List Char :=
  hm (hkd key) (toLowerStr q)

theorem hexVal_hexDigit : ∀ n, n < 16 → hexVal (hexDigit n) = n := by decide

theorem hexToBytes_bytesToHex_append (l : List Nat) (rest : List Char)
    (hb : ∀ b ∈ l, b < 256) :
    hexToBytes (bytesToHex l ++ rest) = l ++ hexToBytes rest := by
  induction l with
  | nil => simp [bytesToHex]
  | cons b bs ih =>
    have hb0 : b < 256 := hb b (List.mem_cons_self _ _)
    simp only [bytesToHex, List.cons_append, hexToBytes]
    rw [hexVal_hexDigit _ (by omega), hexVal_hexDigit _ (by omega),
      List.append_eq, ih (fun x hx => hb x (List.mem_cons_of_mem _ hx))]
    have hmod : b / 16 * 16 + b % 16 = b := by omega
    simp [hmod]

theorem xorKs_xorKs (f : Nat → Nat) (i : Nat) (l : List Nat) :
    xorKs f i (xorKs f i l) = l := by
  induction l generalizing i with
  | nil => rfl
  | cons b bs ih => simp [xorKs, Nat.xor_cancel_right, ih]

theorem xorKs_lt (f : Nat → Nat) (hf : ∀ i, f i < 256) (i : Nat)
    (l : List Nat) (hl : ∀ b ∈ l, b < 256) :
    ∀ b ∈ xorKs f i l, b < 256 := by
  induction l generalizing i with
  | nil => intro b hb; cases hb
  | cons x xs ih =>
    intro b hb
    rcases List.mem_cons.mp hb with rfl | hb
    · have h1 : x < 2 ^ 8 := hl x (List.mem_cons_self _ _)
      have h2 : f i < 2 ^ 8 := hf i
      exact Nat.xor_lt_two_pow h1 h2
    · exact ih (i + 1) (fun y hy => hl y (List.mem_cons_of_mem _ hy)) b hb

end Crypto

/-! ### Properties of the tokenizers -/

theorem mem_dedupFirstGo {l seen : List (List Char)} {x : List Char}
    (hx : x ∈ dedupFirstGo l seen) : x ∈ l := by
  induction l generalizing seen with
  | nil => cases hx
  | cons a rest ih =>
    simp only [dedupFirstGo] at hx
    split at hx
    · exact List.mem_cons_of_mem _ (ih hx)
    · rcases List.mem_cons.mp hx with rfl | hx
      · exact List.mem_cons_self _ _
      · exact List.mem_cons_of_mem _ (ih hx)

theorem dedupFirstGo_nodup (l : List (List Char)) :
    ∀ seen, (dedupFirstGo l seen).Nodup ∧
      ∀ x ∈ dedupFirstGo l seen, x ∉ seen := by
  induction l with
  | nil =>
    intro seen
    exact ⟨List.nodup_nil, by intro x hx; cases hx⟩
  | cons a rest ih =>
    intro seen
    simp only [dedupFirstGo]
    split
    · exact ih seen
    · rename_i ha
      have h1 := ih (a :: seen)
      refine ⟨List.nodup_cons.mpr ⟨?_, h1.1⟩, ?_⟩
      · intro hmem
        exact (h1.2 a hmem) (List.mem_cons_self _ _)
      · intro x hx
        rcases List.mem_cons.mp hx with rfl | hx
        · exact ha
        · intro hs
          exact (h1.2 x hx) (List.mem_cons_of_mem _ hs)

theorem dedupFirst_nodup (l : List (List Char)) : (dedupFirst l).Nodup :=
  (dedupFirstGo_nodup l []).1

theorem mem_dedupFirst {l : List (List Char)} {x : List Char}
    (hx : x ∈ dedupFirst l) : x ∈ l :=
  mem_dedupFirstGo hx

/-- Every character of every token produced by `splitWsGo` is a
non-whitespace character of the input (or of the pending token). -/
theorem splitWsGo_chars {P : Char → Prop} :
    ∀ (s cur : List Char), (∀ c ∈ s, isWs c = false → P c) →
      (∀ c ∈ cur, P c) → ∀ t ∈ splitWsGo s cur, ∀ c ∈ t, P c := by
  intro s
  induction s with
  | nil =>
    intro cur _ hcur t ht c hc
    simp only [splitWsGo] at ht
    split at ht
    · cases ht
    · rcases List.mem_cons.mp ht with rfl | ht
      · exact hcur c (List.mem_reverse.mp hc)
      · cases ht
  | cons a rest ih =>
    intro cur hs hcur t ht c hc
    simp only [splitWsGo] at ht
    by_cases ha : isWs a = true
    · rw [if_pos ha] at ht
      have hs2 : ∀ c2 ∈ rest, isWs c2 = false → P c2 :=
        fun c2 h2 h3 => hs c2 (List.mem_cons_of_mem _ h2) h3
      split at ht
      · exact ih [] hs2 (by intro c2 hc2; cases hc2) t ht c hc
      · rcases List.mem_cons.mp ht with rfl | ht
        · exact hcur c (List.mem_reverse.mp hc)
        · exact ih [] hs2 (by intro c2 hc2; cases hc2) t ht c hc
    · rw [if_neg ha] at ht
      refine ih (a :: cur)
        (fun c2 h2 h3 => hs c2 (List.mem_cons_of_mem _ h2) h3) ?_ t ht c hc
      intro c2 hc2
      rcases List.mem_cons.mp hc2 with rfl | hc2
      · exact hs c2 (List.mem_cons_self _ _) (Bool.not_eq_true _ ▸ ha)
      · exact hcur c2 hc2

/-- C7 helper: each keyword of `basicExtract` is over `[a-z0-9]`. -/
theorem basicExtract_chars {content kw : List Char}
    (hkw : kw ∈ basicExtract content) : ∀ c ∈ kw, keepChar c = true := by
  have h1 : kw ∈ splitWs ((toLowerStr content).map
      (fun c => if keepChar c || isWs c then c else ' ')) := by
    have h2 := List.mem_of_mem_take hkw
    have h3 := mem_dedupFirst h2
    exact (List.mem_filter.mp h3).1
  refine splitWsGo_chars _ [] ?_ (by intro c hc; cases hc) kw h1
  intro c hc hns
  rcases List.mem_map.mp hc with ⟨c0, _, hc0⟩
  by_cases hk : keepChar c0 || isWs c0
  · rw [if_pos hk] at hc0
    subst hc0
    rcases Bool.or_eq_true _ _ |>.mp hk with h | h
    · exact h
    · rw [h] at hns; cases hns
  · rw [if_neg hk] at hc0
    subst hc0
    simp [isWs] at hns

/-- C7 helper: each keyword of the crypto extractor is over `[a-z0-9]`. -/
theorem cryptoExtract_chars {content kw : List Char}
    (hkw : kw ∈ Crypto.extractKeywords content) :
    ∀ c ∈ kw, keepChar c = true := by
  have h1 : kw ∈ splitWs ((toLowerStr content).filter
      (fun c => keepChar c || isWs c)) := by
    have h3 := mem_dedupFirst hkw
    exact (List.mem_filter.mp h3).1
  refine splitWsGo_chars _ [] ?_ (by intro c hc; cases hc) kw h1
  intro c hc hns
  have := (List.mem_filter.mp hc).2
  rcases Bool.or_eq_true _ _ |>.mp this with h | h
  · exact h
  · rw [h] at hns; cases hns

/-! ### Claim C7 -/

/-- Claim C7 as stated is false: the Blind-Index Codec's `extractKeywords`
(crypto module) neither excludes stop words nor caps the keyword count at
10.  The stop word `this` is returned verbatim, and eleven distinct
four-letter words yield eleven keywords. -/
theorem c7_counterexample :
    lit ("this") ∈ Crypto.extractKeywords (lit ("this")) ∧
      lit ("this") ∈ basicStopWords ∧
      (Crypto.extractKeywords
        (lit ("aaaa bbbb cccc dddd eeee ffff gggg hhhh iiii jjjj kkkk"))).length
        = 11 := by decide

/-- Claim C7 (amended): the Store/Query extractor (`basicExtract`, the
deterministic fallback of `index.js`) returns a deduplicated list of at
most 10 keywords, each over `[a-z0-9]` (hence lowercase), longer than 3
characters and not a stop word; the Blind-Index Codec's extractor returns
a deduplicated list of lowercase keywords longer than 3 characters but
applies no stop-word exclusion and no cap. -/
theorem c7_extractor_contract_amended (content : List Char) :
    ((basicExtract content).Nodup ∧ (basicExtract content).length ≤ 10 ∧
      ∀ kw ∈ basicExtract content, 3 < kw.length ∧ kw ∉ basicStopWords ∧
        ∀ c ∈ kw, keepChar c = true) ∧
    ((Crypto.extractKeywords content).Nodup ∧
      ∀ kw ∈ Crypto.extractKeywords content, 3 < kw.length ∧
        ∀ c ∈ kw, keepChar c = true) := by
  refine ⟨⟨?_, ?_, ?_⟩, ?_, ?_⟩
  · exact (dedupFirst_nodup _).sublist (List.take_sublist _ _)
  · exact List.length_take_le _ _
  · intro kw hkw
    have h1 := List.mem_filter.mp (mem_dedupFirst (List.mem_of_mem_take hkw))
    have h2 := h1.2
    rw [Bool.and_eq_true, decide_eq_true_iff, Bool.not_eq_true'] at h2
    refine ⟨h2.1, ?_, basicExtract_chars hkw⟩
    intro hmem
    have : basicStopWords.contains kw = true := List.elem_iff.mpr hmem
    rw [this] at h2
    cases h2.2
  · exact dedupFirst_nodup _
  · intro kw hkw
    have h1 := List.mem_filter.mp (mem_dedupFirst hkw)
    have h2 := h1.2
    rw [decide_eq_true_iff] at h2
    exact ⟨h2, cryptoExtract_chars hkw⟩

/-- Witness for the amended C7 at a concrete input. -/
theorem c7_witness :
    3 < (lit ("hello")).length ∧ lit ("hello") ∉ basicStopWords ∧
      ∀ c ∈ lit ("hello"), keepChar c = true :=
  (c7_extractor_contract_amended (lit ("hello world"))).1.2.2
    (lit ("hello")) (by decide)

/-! ### Claim C10 -/

theorem toLower_of_allowed {c : Char} (h : Server.allowedProjChar c = true) :
    c.toLower = c := by
  have h2 : ¬(c.toNat ≥ 65 ∧ c.toNat ≤ 90) := by
    simp only [Server.allowedProjChar, Bool.or_eq_true, Bool.and_eq_true,
      decide_eq_true_iff, beq_iff_eq] at h
    omega
  simp only [Char.toLower]
  rw [if_neg h2]

theorem sanitizeProject_idem (p : List Char) :
    Server.sanitizeProject (Server.sanitizeProject p) =
      Server.sanitizeProject p := by
  have hall : ∀ c ∈ Server.sanitizeProject p,
      Server.allowedProjChar c = true :=
    fun c hc => (List.mem_filter.mp hc).2
  have hmap : toLowerStr (Server.sanitizeProject p) =
      Server.sanitizeProject p := by
    have h1 : List.map Char.toLower (Server.sanitizeProject p) =
        List.map id (Server.sanitizeProject p) :=
      List.map_congr_left (fun c hc => toLower_of_allowed (hall c hc))
    show List.map Char.toLower _ = _
    rw [h1, List.map_id]
  show (toLowerStr (Server.sanitizeProject p)).filter Server.allowedProjChar
      = _
  rw [hmap, List.filter_eq_self.mpr hall]

/-- Claim C10: the server resolves the storage partition by lowercasing
the project name and deleting every character outside `[a-z0-9_-]`; names
equal up to letter case or up to disallowed characters resolve to the same
partition path (in particular `My Project` and `myproject`), and the
sanitizer itself never changes the partition of an already-sanitized
name (no name is rejected: `getProjectDbPath` is total by construction). -/
theorem c10_project_partition :
    (∀ p q : List Char, toLowerStr p = toLowerStr q →
        Server.getProjectDbPath p = Server.getProjectDbPath q) ∧
    (∀ p q : List Char,
        Server.sanitizeProject p = Server.sanitizeProject q →
        Server.getProjectDbPath p = Server.getProjectDbPath q) ∧
    Server.getProjectDbPath (lit ("My Project")) =
      Server.getProjectDbPath (lit ("myproject")) ∧
    (∀ p : List Char, Server.getProjectDbPath (Server.sanitizeProject p) =
        Server.getProjectDbPath p) := by
  have hpath : ∀ p q : List Char,
      Server.sanitizeProject p = Server.sanitizeProject q →
      Server.getProjectDbPath p = Server.getProjectDbPath q := by
    intro p q h
    unfold Server.getProjectDbPath
    rw [h]
  refine ⟨?_, hpath, ?_, ?_⟩
  · intro p q h
    exact hpath p q (by unfold Server.sanitizeProject; rw [h])
  · exact hpath _ _ (by decide)
  · intro p
    exact hpath _ _ (sanitizeProject_idem p)

/-- Witness for C10 at a concrete pair of names differing only in case. -/
theorem c10_witness :
    Server.getProjectDbPath (lit ("MYPROJECT")) =
      Server.getProjectDbPath (lit ("myproject")) :=
  c10_project_partition.1 (lit ("MYPROJECT")) (lit ("myproject")) (by decide)

/-! ### Claim C9 -/

/-- Kept plus removed rows account for the whole table. -/
theorem filterNot_length_add_countP {α : Type} (p : α → Bool) (l : List α) :
    (l.filter (fun a => !(p a))).length + l.countP p = l.length := by
  induction l with
  | nil => rfl
  | cons a l ih =>
    by_cases h : p a = true <;>
      simp [List.countP_cons, h, List.filter_cons, ih] <;> omega

/-- An old, low-importance, but soft-deleted record. -/
def softDeletedOldRow : Row :=
  ⟨lit ("default"), lit ("x"), lit ("insight"), [], 1,
   lit ("2020-01-01T00:00:00.000Z"), some (lit ("2024-01-01T00:00:00.000Z"))⟩

def cleanupCutoff : List Char := lit ("2025-01-01T00:00:00.000Z")

/-- Claim C9 as stated is false: a record older than the threshold with
importance below the ceiling is *not* removed by Cleanup when it is
soft-deleted — the DELETE additionally requires `deleted_at IS NULL` — so
Cleanup does not remove "exactly the records older than D days with
importance ≤ M". -/
theorem c9_counterexample :
    (strLt softDeletedOldRow.created cleanupCutoff = true ∧
      softDeletedOldRow.importance ≤ 3) ∧
    Server.cleanupOldMemories [softDeletedOldRow] cleanupCutoff 3 =
      ([softDeletedOldRow], 0) := by decide

/-- Claim C9 (amended): Cleanup hard-deletes exactly the
*non-soft-deleted* records older than the threshold with importance ≤ the
ceiling and no others, and returns the number of records removed. -/
theorem c9_cleanup_amended (db : List Row) (cutoff : List Char) (M : ℚ) :
    (∀ r, r ∈ (Server.cleanupOldMemories db cutoff M).1 ↔
        r ∈ db ∧ ¬(strLt r.created cutoff = true ∧ r.importance ≤ M ∧
          r.deleted = none)) ∧
    (Server.cleanupOldMemories db cutoff M).2 =
      db.countP (Server.cleanupPred cutoff M) ∧
    (Server.cleanupOldMemories db cutoff M).1.length +
      (Server.cleanupOldMemories db cutoff M).2 = db.length := by
  have hpred : ∀ r, Server.cleanupPred cutoff M r = true ↔
      (strLt r.created cutoff = true ∧ r.importance ≤ M ∧
        r.deleted = none) := by
    intro r
    simp [Server.cleanupPred, Bool.and_eq_true, decide_eq_true_iff,
      and_assoc]
  refine ⟨?_, rfl, ?_⟩
  · intro r
    rw [show (Server.cleanupOldMemories db cutoff M).1 =
      db.filter (fun r => !(Server.cleanupPred cutoff M r)) from rfl]
    rw [List.mem_filter, Bool.not_eq_true', ← Bool.not_eq_true,
      hpred r]
  · exact filterNot_length_add_countP (Server.cleanupPred cutoff M) db

/-! ### Claims C5 and C6 -/

theorem hexToBytes_bytesToHex (l : List Nat) (hb : ∀ b ∈ l, b < 256) :
    Crypto.hexToBytes (Crypto.bytesToHex l) = l := by
  have := Crypto.hexToBytes_bytesToHex_append l [] hb
  simpa [Crypto.hexToBytes] using this

/-- Claim C5: decrypting the ciphertext-plus-tag blob and IV produced by
`encryptWithIndex` under the same key yields exactly the plaintext, for
every plaintext, key and IV and for every keystream/tag primitive with
byte-valued output and 16-byte tags (AES-256-GCM in the source).
Plaintext characters are its bytes, hence the `< 256` bound. -/
theorem c5_encrypt_decrypt_roundtrip
    (ks : List Nat → List Nat → Nat → Nat)
    (mac : List Nat → List Nat → List Nat → List Nat)
    (hm : List Nat → List Char → List Char) (hkd : List Nat → List Nat)
    (key iv : List Nat) (content : List Char)
    (hks : ∀ k v i, ks k v i < 256)
    (hmacLen : ∀ k v d, (mac k v d).length = 16)
    (hmacByte : ∀ k v d, ∀ b ∈ mac k v d, b < 256)
    (hiv : ∀ b ∈ iv, b < 256)
    (hcontent : ∀ c ∈ content, c.toNat < 256) :
    Crypto.decrypt ks mac key
      (Crypto.encryptWithIndex ks mac hm hkd content key iv).ciphertext
      (Crypto.encryptWithIndex ks mac hm hkd content key iv).iv
      = some content := by
  have hpb256 : ∀ b ∈ content.map Char.toNat, b < 256 := by
    intro b hb
    rcases List.mem_map.mp hb with ⟨c, hc, rfl⟩
    exact hcontent c hc
  have hct256 : ∀ b ∈ Crypto.xorKs (ks key iv) 0 (content.map Char.toNat),
      b < 256 :=
    Crypto.xorKs_lt _ (hks key iv) 0 _ hpb256
  simp only [Crypto.encryptWithIndex, Crypto.decrypt]
  rw [hexToBytes_bytesToHex iv hiv,
    Crypto.hexToBytes_bytesToHex_append _ _ hct256,
    hexToBytes_bytesToHex _ (hmacByte key iv _)]
  have hlen : (Crypto.xorKs (ks key iv) 0 (content.map Char.toNat) ++
      mac key iv (Crypto.xorKs (ks key iv) 0 (content.map Char.toNat))).length
      - Crypto.AUTH_TAG_LENGTH =
      (Crypto.xorKs (ks key iv) 0 (content.map Char.toNat)).length := by
    rw [List.length_append, hmacLen]
    rfl
  rw [hlen, List.take_left, List.drop_left, if_pos (beq_self_eq_true _),
    Crypto.xorKs_xorKs]
  simp [List.map_map, Function.comp_def, Char.ofNat_toNat]

/-- Witness for C5 at a concrete plaintext, key, IV and primitives. -/
theorem c5_witness :
    Crypto.decrypt (fun _ _ _ => 0) (fun _ _ _ => List.replicate 16 0) []
      (Crypto.encryptWithIndex (fun _ _ _ => 0)
        (fun _ _ _ => List.replicate 16 0) (fun _ _ => []) (fun _ => [])
        (lit ("hi")) [] [7]).ciphertext
      (Crypto.encryptWithIndex (fun _ _ _ => 0)
        (fun _ _ _ => List.replicate 16 0) (fun _ _ => []) (fun _ => [])
        (lit ("hi")) [] [7]).iv = some (lit ("hi")) :=
  c5_encrypt_decrypt_roundtrip _ _ _ _ [] [7] (lit ("hi"))
    (fun _ _ _ => by decide) (fun _ _ _ => by decide)
    (fun _ _ _ b hb => by
      rw [List.eq_of_mem_replicate hb]
      decide)
    (by decide) (by decide)

/-- Claim C6: for every keyword in the extracted keyword set of a content,
the blind-index token stored for it by `encryptWithIndex` equals the token
`generateQueryIndex` produces for that keyword under the same key — both
are the HMAC, under the key derived from the encryption key, of the
lowercased keyword. -/
theorem c6_blind_index_roundtrip
    (ks : List Nat → List Nat → Nat → Nat)
    (mac : List Nat → List Nat → List Nat → List Nat)
    (hm : List Nat → List Char → List Char) (hkd : List Nat → List Nat)
    (content : List Char) (key iv : List Nat) (kw : List Char)
    (hkw : kw ∈ Crypto.extractKeywords content) :
    Crypto.generateQueryIndex hm hkd kw key ∈
      (Crypto.encryptWithIndex ks mac hm hkd content key iv).blindIndexes := by
  simp only [Crypto.encryptWithIndex, Crypto.generateQueryIndex]
  exact List.mem_map.mpr ⟨kw, hkw, rfl⟩

/-- Witness for C6: the token for `hello` extracted from `hello world`. -/
theorem c6_witness :
    Crypto.generateQueryIndex (fun _ s => s) (fun k => k)
        (lit ("hello")) [1] ∈
      (Crypto.encryptWithIndex (fun _ _ _ => 0)
        (fun _ _ _ => List.replicate 16 0) (fun _ s => s) (fun k => k)
        (lit ("hello world")) [1] [7]).blindIndexes :=
  c6_blind_index_roundtrip _ _ _ _ (lit ("hello world")) [1] [7]
    (lit ("hello")) (by decide)

/-! ### Claim C4 -/

theorem validateStoreInput_err_of_bad_importance {content : List Char}
    {opts : StoreOpts} {v : ℚ} (hv : opts.importance = some v)
    (hbad : v < 1 ∨ 10 < v) :
    ∀ u, MB.validateStoreInput content opts ≠ .ok u := by
  intro u hok
  unfold MB.validateStoreInput at hok
  rw [hv] at hok
  have himp : (decide (v < 1) || decide (v > 10)) = true := by
    rcases hbad with h | h <;> simp [h]
  split_ifs at hok <;> simp_all

theorem validateStoreInput_ok_importance {content : List Char}
    {opts : StoreOpts} {v : ℚ} (hv : opts.importance = some v)
    (hok : MB.validateStoreInput content opts = .ok ()) :
    1 ≤ v ∧ v ≤ 10 := by
  by_cases h1 : v < 1
  · exact absurd hok (validateStoreInput_err_of_bad_importance hv (Or.inl h1) ())
  · by_cases h2 : 10 < v
    · exact absurd hok
        (validateStoreInput_err_of_bad_importance hv (Or.inr h2) ())
    · exact ⟨le_of_not_lt h1, le_of_not_lt h2⟩

theorem calculateImportance_range (content type : List Char) :
    1 ≤ MB.calculateImportance content type ∧
      MB.calculateImportance content type ≤ 10 := by
  simp only [MB.calculateImportance]
  split_ifs <;> norm_num [min_def]

/-- Claim C4 as stated is false on the server store endpoint (one of its
two cited Store paths): an explicitly supplied importance of 99 is not
rejected — the endpoint clamps it to 10 and persists the record. -/
theorem c4_counterexample :
    (Server.storeEndpoint [] (lit ("x")) none none (some 99)
        (lit ("2026-01-01T00:00:00.000Z"))).toOption =
      some ([⟨lit ("default"), lit ("x"), lit ("insight"), [], 10,
          lit ("2026-01-01T00:00:00.000Z"), none⟩],
        ⟨lit ("default"), lit ("x"), lit ("insight"), [], 10,
          lit ("2026-01-01T00:00:00.000Z"), none⟩) := by decide

/-- Claim C4 (amended): the library Store (`index.js`) rejects an
explicitly supplied importance outside `[1,10]` with a `ValidationError`
and persists nothing, and any record it does persist (explicit or
computed default importance) has importance in `[1,10]`; the server's
store endpoint does not reject but clamps every supplied importance into
`[1,10]`, so persisted importance is in range on both paths. -/
theorem c4_importance_amended :
    (∀ (db : List Row) (content : List Char) (opts : StoreOpts)
        (now : List Char) (v : ℚ), opts.importance = some v →
        (v < 1 ∨ 10 < v) →
        ∀ res, MB.store db content opts now ≠ .ok res) ∧
    (∀ (db : List Row) (content : List Char) (opts : StoreOpts)
        (now : List Char) (db2 : List Row) (r : Row),
        MB.store db content opts now = .ok (db2, r) →
        (1 ≤ r.importance ∧ r.importance ≤ 10) ∧ db2 = db ++ [r]) ∧
    (∀ (db : List Row) (content : List Char)
        (type agentId : Option (List Char)) (imp : Option ℚ)
        (now : List Char) (db2 : List Row) (r : Row),
        Server.storeEndpoint db content type agentId imp now = .ok (db2, r) →
        1 ≤ r.importance ∧ r.importance ≤ 10) := by
  refine ⟨?_, ?_, ?_⟩
  · intro db content opts now v hv hbad res hok
    unfold MB.store at hok
    cases h : MB.validateStoreInput content opts with
    | error e => rw [h] at hok; simp at hok
    | ok u => exact validateStoreInput_err_of_bad_importance hv hbad u h
  · intro db content opts now db2 r hok
    unfold MB.store at hok
    cases h : MB.validateStoreInput content opts with
    | error e => rw [h] at hok; simp at hok
    | ok u =>
      rw [h] at hok
      simp only [Except.ok.injEq, Prod.mk.injEq] at hok
      obtain ⟨hdb, hr⟩ := hok
      subst hr
      subst hdb
      refine ⟨?_, rfl⟩
      cases u
      cases hv : opts.importance with
      | some v =>
        have hrange := validateStoreInput_ok_importance hv h
        simpa [hv] using hrange
      | none =>
        simpa [hv] using calculateImportance_range content _
  · intro db content type agentId imp now db2 r hok
    unfold Server.storeEndpoint at hok
    split_ifs at hok <;> simp_all
    obtain ⟨-, hr⟩ := hok
    rw [← hr]
    refine ⟨le_min (by norm_num) (le_max_left _ _), min_le_left _ _⟩

/-- Witness for the amended C4: importance 99 is rejected by the library
store, the accepted default-importance store lands in range, and the
server endpoint clamps 99 to a value in range. -/
theorem c4_witness :
    MB.store [] (lit ("y")) ⟨none, none, some 99⟩ (lit ("t")) ≠
      .ok ([], ⟨lit ("default"), lit ("y"), lit ("insight"), [], 1,
        lit ("t"), none⟩) :=
  c4_importance_amended.1 [] (lit ("y")) ⟨none, none, some 99⟩ (lit ("t"))
    99 rfl (Or.inr (by norm_num)) _

/-! ### Claim C2 -/

/-- A candidate row passing every filter of the default query. -/
def c2Row : Row :=
  ⟨lit ("default"), lit ("note"), lit ("insight"), [lit ("alpha")], 5,
   lit ("2026-01-02T00:00:00.000Z"), none⟩

def c2Cutoff : List Char := lit ("2026-01-01T00:00:00.000Z")

/-- Claim C2 as stated is false: on a zero-keyword query (`the` extracts
no keywords) the candidate is returned — no relevance filtering — but its
relevance field is 0, not 1 (`queryKeywords.length > 0 ? ... : 0`). -/
theorem c2_counterexample :
    MB.queryDefault [c2Row] (lit ("the")) c2Cutoff = [⟨c2Row, 0⟩] ∧
      ¬(∀ s ∈ MB.queryDefault [c2Row] (lit ("the")) c2Cutoff,
        s.relevance = 1) := by decide

/-- Claim C2 (amended): for a query whose keyword extraction yields zero
keywords, no candidate is discarded by the relevance filter — the query
returns the filtered candidates, newest first, up to the 50-row fetch cap
and the result limit — and each returned candidate's relevance field
equals 0 (not 1). -/
theorem c2_zero_keywords_amended (db : List Row) (agentId : List Char)
    (qstr cutoff : List Char) (limit : Nat) (minImportance : ℚ)
    (hq : extractKeywords qstr = []) :
    MB.query db qstr agentId limit cutoff minImportance =
      ((MB.candidates db agentId cutoff minImportance).map
        (MB.scoreRow [])).take limit ∧
    ∀ s ∈ MB.query db qstr agentId limit cutoff minImportance,
      s.relevance = 0 := by
  have hrel : ∀ r : Row, (MB.scoreRow [] r).relevance = 0 := by
    intro r
    simp [MB.scoreRow]
  have hmain : MB.query db qstr agentId limit cutoff minImportance =
      ((MB.candidates db agentId cutoff minImportance).map
        (MB.scoreRow [])).take limit := by
    unfold MB.query MB.querySQLite MB.rankPool
    rw [hq]
    have hfilter : (((MB.candidates db agentId cutoff minImportance).map
        (MB.scoreRow ([] : List (List Char))))).filter
          (MB.keepScored []) =
        (MB.candidates db agentId cutoff minImportance).map
          (MB.scoreRow []) :=
      List.filter_eq_self.mpr (fun a _ => by simp [MB.keepScored])
    rw [hfilter]
    rw [insSort_of_all]
    intro a ha b hb
    rcases List.mem_map.mp ha with ⟨r1, _, rfl⟩
    rcases List.mem_map.mp hb with ⟨r2, _, rfl⟩
    simp [keyGe, MB.prodKey, hrel, ratMul_eq]
  refine ⟨hmain, ?_⟩
  intro s hs
  rw [hmain] at hs
  rcases List.mem_map.mp (List.mem_of_mem_take hs) with ⟨r, _, rfl⟩
  exact hrel r

/-- Witness for the amended C2 at a concrete store. -/
theorem c2_witness :
    MB.query [c2Row] (lit ("the")) (lit ("default")) 5 c2Cutoff 0 =
      ((MB.candidates [c2Row] (lit ("default")) c2Cutoff 0).map
        (MB.scoreRow [])).take 5 ∧
    ∀ s ∈ MB.query [c2Row] (lit ("the")) (lit ("default")) 5 c2Cutoff 0,
      s.relevance = 0 :=
  c2_zero_keywords_amended [c2Row] (lit ("default")) (lit ("the"))
    c2Cutoff 5 0 (by decide)

/-! ### Claim C8 -/

theorem lookupG_addToGroup (k key : List Char) (r : Row)
    (acc : List (List Char × List Row)) :
    Server.lookupG k (Server.addToGroup key r acc) =
      Server.lookupG k acc ++ (if key = k then [r] else []) := by
  induction acc with
  | nil =>
    simp only [Server.addToGroup, Server.lookupG]
    by_cases h : key = k
    · simp [h]
    · simp [h]
  | cons p rest ih =>
    obtain ⟨k2, v⟩ := p
    simp only [Server.addToGroup]
    by_cases h2 : k2 = key
    · rw [if_pos h2]
      simp only [Server.lookupG]
      by_cases h3 : k2 = k
      · rw [if_pos h3, if_pos h3, if_pos (h2 ▸ h3)]
      · rw [if_neg h3, if_neg h3, if_neg (h2 ▸ h3), List.append_nil]
    · rw [if_neg h2]
      simp only [Server.lookupG]
      by_cases h3 : k2 = k
      · rw [if_pos h3, if_pos h3,
          if_neg (show ¬key = k from fun he => h2 (h3.trans he.symm)),
          List.append_nil]
      · rw [if_neg h3, if_neg h3, ih]

theorem lookupG_foldl_group (k : List Char) (rows : List Row) :
    ∀ acc, Server.lookupG k
        (rows.foldl (fun acc r => Server.addToGroup (Server.dateOf r) r acc)
          acc) =
      Server.lookupG k acc ++
        rows.filter (fun r => Server.dateOf r == k) := by
  induction rows with
  | nil => intro acc; simp
  | cons r rows ih =>
    intro acc
    simp only [List.foldl_cons]
    rw [ih, lookupG_addToGroup]
    by_cases h : Server.dateOf r = k
    · rw [if_pos h]
      have : (r :: rows).filter (fun r => Server.dateOf r == k) =
          r :: rows.filter (fun r => Server.dateOf r == k) := by
        simp [List.filter_cons, h]
      rw [this, List.append_assoc]
      rfl
    · rw [if_neg h, List.append_nil]
      have : (r :: rows).filter (fun r => Server.dateOf r == k) =
          rows.filter (fun r => Server.dateOf r == k) := by
        simp [List.filter_cons, h]
      rw [this]

theorem mem_keysOf_addToGroup {k key : List Char} {r : Row}
    {acc : List (List Char × List Row)} :
    k ∈ Server.keysOf (Server.addToGroup key r acc) ↔
      k = key ∨ k ∈ Server.keysOf acc := by
  induction acc with
  | nil => simp [Server.addToGroup, Server.keysOf]
  | cons p rest ih =>
    obtain ⟨k2, v⟩ := p
    simp only [Server.addToGroup]
    by_cases h2 : k2 = key
    · subst h2
      rw [if_pos rfl]
      simp only [Server.keysOf, List.map_cons, List.mem_cons]
      tauto
    · rw [if_neg h2]
      simp only [Server.keysOf, List.map_cons, List.mem_cons] at ih ⊢
      rw [ih]
      tauto

theorem mem_keysOf_foldl_group (k : List Char) (rows : List Row) :
    ∀ acc, k ∈ Server.keysOf
        (rows.foldl (fun acc r => Server.addToGroup (Server.dateOf r) r acc)
          acc) ↔
      k ∈ Server.keysOf acc ∨ ∃ r ∈ rows, Server.dateOf r = k := by
  induction rows with
  | nil => intro acc; simp
  | cons r rows ih =>
    intro acc
    simp only [List.foldl_cons]
    rw [ih, mem_keysOf_addToGroup]
    constructor
    · rintro ((h | h) | ⟨r2, h2, h3⟩)
      · exact Or.inr ⟨r, List.mem_cons_self _ _, h.symm⟩
      · exact Or.inl h
      · exact Or.inr ⟨r2, List.mem_cons_of_mem _ h2, h3⟩
    · rintro (h | ⟨r2, h2, h3⟩)
      · exact Or.inl (Or.inr h)
      · rcases List.mem_cons.mp h2 with rfl | h2
        · exact Or.inl (Or.inl h3.symm)
        · exact Or.inr ⟨r2, h2, h3⟩

theorem values_ne_nil_addToGroup {key : List Char} {r : Row}
    {acc : List (List Char × List Row)} (h : ∀ p ∈ acc, p.2 ≠ []) :
    ∀ p ∈ Server.addToGroup key r acc, p.2 ≠ [] := by
  induction acc with
  | nil =>
    intro p hp
    simp only [Server.addToGroup] at hp
    rcases List.mem_cons.mp hp with rfl | hp
    · simp
    · cases hp
  | cons q rest ih =>
    obtain ⟨k2, v⟩ := q
    intro p hp
    simp only [Server.addToGroup] at hp
    by_cases h2 : k2 = key
    · rw [if_pos h2] at hp
      rcases List.mem_cons.mp hp with rfl | hp
      · simp
      · exact h p (List.mem_cons_of_mem _ hp)
    · rw [if_neg h2] at hp
      rcases List.mem_cons.mp hp with rfl | hp
      · exact h _ (List.mem_cons_self _ _)
      · exact ih (fun q hq => h q (List.mem_cons_of_mem _ hq)) p hp

theorem values_ne_nil_foldl_group (rows : List Row) :
    ∀ acc, (∀ p ∈ acc, p.2 ≠ []) →
      ∀ p ∈ rows.foldl
          (fun acc r => Server.addToGroup (Server.dateOf r) r acc) acc,
        p.2 ≠ [] := by
  induction rows with
  | nil => intro acc h; exact h
  | cons r rows ih =>
    intro acc h
    exact ih _ (values_ne_nil_addToGroup h)

theorem lookupG_ne_nil {k : List Char} {g : List (List Char × List Row)}
    (hk : k ∈ Server.keysOf g) (h : ∀ p ∈ g, p.2 ≠ []) :
    Server.lookupG k g ≠ [] := by
  induction g with
  | nil => simp [Server.keysOf] at hk
  | cons p rest ih =>
    obtain ⟨k2, v⟩ := p
    simp only [Server.lookupG]
    by_cases h2 : k2 = k
    · rw [if_pos h2]
      exact h _ (List.mem_cons_self _ _)
    · rw [if_neg h2]
      refine ih ?_ (fun q hq => h q (List.mem_cons_of_mem _ hq))
      simp only [Server.keysOf, List.map_cons, List.mem_cons] at hk
      rcases hk with rfl | hk
      · exact absurd rfl h2
      · exact hk

/-- Claim C8: for every Timeline call, the keys of the grouped result are
exactly the distinct date portions of the in-window non-deleted records;
every key maps to a non-empty sequence, namely exactly the fetched rows of
that date; and each per-day sequence inherits the fetch's
creation-time-descending order. -/
theorem c8_timeline_grouping (db : List Row) (agentF : Option (List Char))
    (cutoff : List Char) :
    (∀ d, d ∈ Server.keysOf (Server.getTimeline db agentF cutoff) ↔
        ∃ r ∈ db, Server.tlPred agentF cutoff r = true ∧
          Server.dateOf r = d) ∧
    (∀ d, d ∈ Server.keysOf (Server.getTimeline db agentF cutoff) →
        Server.lookupG d (Server.getTimeline db agentF cutoff) ≠ []) ∧
    (∀ d, Server.lookupG d (Server.getTimeline db agentF cutoff) =
        (Server.timelineRows db agentF cutoff).filter
          (fun r => Server.dateOf r == d)) ∧
    (∀ d, (Server.lookupG d
        (Server.getTimeline db agentF cutoff)).Pairwise
        (fun a b => strLe b.created a.created = true)) := by
  have hmemtl : ∀ r, r ∈ Server.timelineRows db agentF cutoff ↔
      r ∈ db ∧ Server.tlPred agentF cutoff r = true := by
    intro r
    unfold Server.timelineRows
    rw [mem_insSort, List.mem_filter]
  have hsorted : (Server.timelineRows db agentF cutoff).Pairwise
      (fun a b => strLe b.created a.created = true) := by
    unfold Server.timelineRows
    exact pairwise_insSort
      (fun (a b : Row) => strLe_total b.created a.created)
      (fun a b c h1 h2 => strLe_trans h2 h1) _
  have hlook : ∀ d,
      Server.lookupG d (Server.getTimeline db agentF cutoff) =
        (Server.timelineRows db agentF cutoff).filter
          (fun r => Server.dateOf r == d) := by
    intro d
    have := lookupG_foldl_group d (Server.timelineRows db agentF cutoff) []
    simpa [Server.lookupG] using this
  refine ⟨?_, ?_, hlook, ?_⟩
  · intro d
    show d ∈ Server.keysOf ((Server.timelineRows db agentF cutoff).foldl
      (fun acc r => Server.addToGroup (Server.dateOf r) r acc) []) ↔ _
    rw [mem_keysOf_foldl_group]
    simp only [Server.keysOf, List.map_nil, List.not_mem_nil, false_or]
    constructor
    · rintro ⟨r, hr, hd⟩
      obtain ⟨h1, h2⟩ := (hmemtl r).mp hr
      exact ⟨r, h1, h2, hd⟩
    · rintro ⟨r, hr, h2, hd⟩
      exact ⟨r, (hmemtl r).mpr ⟨hr, h2⟩, hd⟩
  · intro d hd
    exact lookupG_ne_nil hd
      (values_ne_nil_foldl_group _ [] (by intro p hp; cases hp))
  · intro d
    rw [hlook d]
    exact List.Pairwise.sublist (List.filter_sublist _) hsorted

/-- Witness for C8: the grouped timeline of a single stored record has a
non-empty sequence under that record's date key. -/
theorem c8_witness :
    Server.lookupG (lit ("2026-01-02"))
      (Server.getTimeline [c2Row] none c2Cutoff) ≠ [] :=
  (c8_timeline_grouping [c2Row] none c2Cutoff).2.1 (lit ("2026-01-02"))
    (by decide)

/-! ### Claim C3 -/

theorem serverRel_total (a b : Server.SRow) :
    Server.serverLe a b = true ∨ Server.serverLe b a = true := by
  unfold Server.serverLe
  rcases lt_trichotomy a.row.importance b.row.importance with h | h | h
  · right
    exact decide_eq_true (Or.inl h)
  · rcases Nat.lt_trichotomy a.relevance b.relevance with h2 | h2 | h2
    · right
      exact decide_eq_true (Or.inr ⟨h.symm, Or.inl h2⟩)
    · rcases strLe_total a.row.created b.row.created with h3 | h3
      · right
        exact decide_eq_true (Or.inr ⟨h.symm, Or.inr ⟨h2.symm, h3⟩⟩)
      · left
        exact decide_eq_true (Or.inr ⟨h, Or.inr ⟨h2, h3⟩⟩)
    · left
      exact decide_eq_true (Or.inr ⟨h, Or.inl h2⟩)
  · left
    exact decide_eq_true (Or.inl h)

theorem serverRel_trans (a b c : Server.SRow)
    (h1 : Server.serverLe a b = true) (h2 : Server.serverLe b c = true) :
    Server.serverLe a c = true := by
  unfold Server.serverLe at h1 h2 ⊢
  rw [decide_eq_true_iff] at h1 h2 ⊢
  rcases h1 with h1 | ⟨he1, h1⟩ <;> rcases h2 with h2 | ⟨he2, h2⟩
  · exact Or.inl (lt_trans h2 h1)
  · exact Or.inl (by rw [← he2]; exact h1)
  · exact Or.inl (by rw [he1]; exact h2)
  · rcases h1 with h1 | ⟨hr1, h1⟩ <;> rcases h2 with h2 | ⟨hr2, h2⟩
    · exact Or.inr ⟨he1.trans he2, Or.inl (lt_trans h2 h1)⟩
    · exact Or.inr ⟨he1.trans he2, Or.inl (by omega)⟩
    · exact Or.inr ⟨he1.trans he2, Or.inl (by omega)⟩
    · exact Or.inr ⟨he1.trans he2,
        Or.inr ⟨hr1.trans hr2, strLe_trans h2 h1⟩⟩

def c3RowA : Row :=
  ⟨lit ("default"), lit ("pay pay pay"), lit ("insight"), [], 5,
   lit ("2026-01-02T00:00:00.000Z"), none⟩

def c3RowB : Row :=
  ⟨lit ("default"), lit ("pay"), lit ("insight"), [], 6,
   lit ("2026-01-02T01:00:00.000Z"), none⟩

/-- Claim C3 as stated is false for `server.js` `queryMemories` (one of
its two cited Query paths): it orders by importance first, so a result
with relevance × importance 6 precedes one scoring 15. -/
theorem c3_counterexample :
    Server.queryMemories [c3RowA, c3RowB] (lit ("pay")) c2Cutoff none none 5
      = [⟨c3RowB, 1⟩, ⟨c3RowA, 3⟩] ∧
    ¬((Server.queryMemories [c3RowA, c3RowB] (lit ("pay")) c2Cutoff none
        none 5).Pairwise (fun a b =>
          (b.relevance : ℚ) * b.row.importance ≤
            (a.relevance : ℚ) * a.row.importance)) := by
  have hres : Server.queryMemories [c3RowA, c3RowB] (lit ("pay")) c2Cutoff
      none none 5 = [⟨c3RowB, 1⟩, ⟨c3RowA, 3⟩] := by decide
  refine ⟨hres, ?_⟩
  rw [hres]
  intro h
  have h2 := (List.pairwise_cons.mp h).1 _ (List.mem_cons_self _ _)
  norm_num [c3RowA, c3RowB] at h2

/-- Claim C3 (amended): the `index.js` ranker's results are sorted by
relevance × importance descending with ties by creation time descending
(newest first, by stability of the sort over the creation-ordered fetch);
the `server.js` `queryMemories` results are instead sorted by importance
descending, then relevance descending, then creation time descending. -/
theorem c3_sort_order_amended (db : List Row) (agentId : List Char)
    (qk : List (List Char)) (limit : Nat) (cutoff : List Char)
    (minImportance : ℚ) (q : List Char)
    (agentF typeF : Option (List Char)) :
    (MB.querySQLite db agentId qk limit cutoff minImportance).Pairwise
      (StabRel MB.prodKey
        (fun a b => strLe b.row.created a.row.created = true)) ∧
    (Server.queryMemories db q cutoff agentF typeF limit).Pairwise
      Server.ServerRel := by
  constructor
  · unfold MB.querySQLite
    refine List.Pairwise.sublist (List.take_sublist _ _) ?_
    refine pairwise_insSort_stab ?_
    unfold MB.rankPool
    refine List.Pairwise.sublist (List.filter_sublist _) ?_
    refine List.Pairwise.map _ (fun a b h => h) ?_
    unfold MB.candidates
    refine List.Pairwise.sublist (List.take_sublist _ _) ?_
    exact pairwise_insSort
      (fun (a b : Row) => strLe_total b.created a.created)
      (fun a b c h1 h2 => strLe_trans h2 h1) _
  · unfold Server.queryMemories
    refine List.Pairwise.sublist (List.take_sublist _ _) ?_
    refine (pairwise_insSort serverRel_total serverRel_trans _).imp ?_
    intro a b hab
    exact of_decide_eq_true hab

/-! ### Claim C1 -/

theorem isPre_refl (x : List Char) : isPre x x = true := by
  induction x with
  | nil => rfl
  | cons c cs ih => simp [isPre, ih]

theorem hasSub_refl (x : List Char) : hasSub x x = true := by
  cases x with
  | nil => rfl
  | cons c cs => simp [hasSub, isPre_refl]

theorem keyGe_total {α : Type} (k : α → ℚ) (a b : α) :
    keyGe k a b = true ∨ keyGe k b a = true := by
  unfold keyGe
  rcases le_total (k b) (k a) with h | h
  · exact Or.inl (decide_eq_true h)
  · exact Or.inr (decide_eq_true h)

theorem keyGe_trans {α : Type} (k : α → ℚ) (a b c : α)
    (h1 : keyGe k a b = true) (h2 : keyGe k b c = true) :
    keyGe k a c = true := by
  unfold keyGe at h1 h2 ⊢
  exact decide_eq_true (le_trans (of_decide_eq_true h2) (of_decide_eq_true h1))

/-- The keywords Store persists for a record are the extractor's output on
its content. -/
theorem store_ok_keywords {db : List Row} {content : List Char}
    {opts : StoreOpts} {now : List Char} {db2 : List Row} {r : Row}
    (hstore : MB.store db content opts now = .ok (db2, r)) :
    r.keywords = extractKeywords content := by
  unfold MB.store at hstore
  cases h : MB.validateStoreInput content opts with
  | error e => rw [h] at hstore; simp at hstore
  | ok u =>
    rw [h] at hstore
    simp only [Except.ok.injEq, Prod.mk.injEq] at hstore
    rw [← hstore.2]

/-- Claim C1 (amended): a record stored via Store is returned by a Query
in the same agent scope sharing a keyword with its content, with the
default limit (5) and minimum importance (0), *provided* the record is
among the (at most 50) fetched in-window candidates (`hcand`) and at most
5 scored candidates — itself included — reach a relevance × importance
product at least its own (`hcount`); with six candidates of which five
score higher, the record is cut off (see the counterexample). -/
theorem c1_store_query_amended (db : List Row) (content : List Char)
    (opts : StoreOpts) (now qstr cutoff : List Char) (db2 : List Row)
    (r : Row) (kw : List Char)
    (hstore : MB.store db content opts now = .ok (db2, r))
    (hkw1 : kw ∈ extractKeywords content)
    (hkw2 : kw ∈ extractKeywords qstr)
    (hcand : r ∈ MB.candidates db2 (opts.agentId.getD (lit ("default")))
        cutoff 0)
    (hcount : ((MB.rankPool db2 (opts.agentId.getD (lit ("default")))
        (extractKeywords qstr) cutoff 0).countP
        (fun y => decide (MB.prodKey (MB.scoreRow (extractKeywords qstr) r)
          ≤ MB.prodKey y))) ≤ 5) :
    MB.scoreRow (extractKeywords qstr) r ∈
      MB.query db2 qstr (opts.agentId.getD (lit ("default"))) 5 cutoff 0 := by
  have hqk : 0 < (extractKeywords qstr).length :=
    List.length_pos.mpr (List.ne_nil_of_mem hkw2)
  have hkwr : kw ∈ r.keywords := by
    rw [store_ok_keywords hstore]
    exact hkw1
  have hmatch : 0 < MB.matchCount (extractKeywords qstr) r.keywords := by
    unfold MB.matchCount
    refine List.length_pos.mpr (List.ne_nil_of_mem (List.mem_filter.mpr ⟨hkw2, ?_⟩))
    refine List.any_eq_true.mpr ⟨kw, hkwr, ?_⟩
    simp [hasSub_refl]
  have hrel : 0 < (MB.scoreRow (extractKeywords qstr) r).relevance := by
    rw [MB.scoreRow_relevance, if_pos hqk]
    exact div_pos (by exact_mod_cast hmatch) (by exact_mod_cast hqk)
  have hpool : MB.scoreRow (extractKeywords qstr) r ∈
      MB.rankPool db2 (opts.agentId.getD (lit ("default")))
        (extractKeywords qstr) cutoff 0 := by
    unfold MB.rankPool
    refine List.mem_filter.mpr ⟨List.mem_map_of_mem _ hcand, ?_⟩
    unfold MB.keepScored
    simp [hrel]
  unfold MB.query MB.querySQLite
  have hsorted := (pairwise_insSort (keyGe_total MB.prodKey)
    (keyGe_trans MB.prodKey)
    (MB.rankPool db2 (opts.agentId.getD (lit ("default")))
      (extractKeywords qstr) cutoff 0)).imp
    (fun {a b} hab => of_decide_eq_true hab)
  refine mem_take_of_countP_le hsorted (mem_insSort.mpr hpool) ?_
  rw [countP_insSort]
  exact hcount

/-- Database of five high-importance records matching `payment`. -/
def mkPayRow (t : List Char) : Row :=
  ⟨lit ("default"), lit ("payment"), lit ("insight"), [lit ("payment")], 10,
   t, none⟩

def db5 : List Row :=
  [mkPayRow (lit ("2026-01-02T00:00:01.000Z")),
   mkPayRow (lit ("2026-01-02T00:00:02.000Z")),
   mkPayRow (lit ("2026-01-02T00:00:03.000Z")),
   mkPayRow (lit ("2026-01-02T00:00:04.000Z")),
   mkPayRow (lit ("2026-01-02T00:00:05.000Z"))]

def c1Now : List Char := lit ("2026-01-03T00:00:00.000Z")

/-- The record Store persists in the counterexample. -/
def c1StoredRow : Row :=
  ⟨lit ("default"), lit ("payment"), lit ("insight"), [lit ("payment")], 7,
   c1Now, none⟩

/-- Claim C1 as stated is false: a freshly stored record sharing the
keyword `payment` with the query, in scope and in window, is *not* in the
result list — five higher-scoring candidates fill the default limit of
5. -/
theorem c1_counterexample :
    MB.store db5 (lit ("payment")) ⟨none, none, some 7⟩ c1Now =
      .ok (db5 ++ [c1StoredRow], c1StoredRow) ∧
    lit ("payment") ∈ c1StoredRow.keywords ∧
    lit ("payment") ∈ extractKeywords (lit ("payment")) ∧
    strLt c2Cutoff c1StoredRow.created = true ∧
    MB.scoreRow (extractKeywords (lit ("payment"))) c1StoredRow ∉
      MB.queryDefault (db5 ++ [c1StoredRow]) (lit ("payment")) c2Cutoff ∧
    (MB.queryDefault (db5 ++ [c1StoredRow]) (lit ("payment"))
      c2Cutoff).length = 5 := by
  refine ⟨rfl, ?_⟩
  decide

/-- Witness for the amended C1: with a single stored record the shared
keyword `payment` retrieves it. -/
theorem c1_witness :
    MB.scoreRow (extractKeywords (lit ("payment"))) c1StoredRow ∈
      MB.query [c1StoredRow] (lit ("payment")) (lit ("default")) 5
        c2Cutoff 0 :=
  c1_store_query_amended [] (lit ("payment")) ⟨none, none, some 7⟩ c1Now
    (lit ("payment")) c2Cutoff [c1StoredRow] c1StoredRow (lit ("payment"))
    rfl (by decide) (by decide) (by decide) (by decide)

end Mnemo
